import Mathlib

/-!
Verification of the nebenkosten allocation engine.

Shallow embedding of `src/nebenkosten/types.py`, `src/nebenkosten/meter.py`,
`src/nebenkosten/__init__.py` and `src/createbill.py`.

Modelling conventions:
* `Date` is an integer day index (Python wraps `datetime.date`, a totally
  ordered day-granularity value with exact one-day stepping; `yesterday` and
  `tomorrow` step one day down and up).  Concrete 2020 calendar dates used by
  the spec's examples are encoded as days since 2020-01-01 via `date2020`.
* Python lists become `List`, dictionaries become association lists with the
  Python `dict` insert/overwrite behaviour (`dinsert`, `dlookup`).
* Methods that mutate `self` become functions returning the updated value.
* Logging calls have no observable effect on the returned data and are not
  modelled; exceptions (`MeterValueException`) become `Except String`.
-/

/-- A calendar day, as in `types.py` `Date` (day index; total order). -/
abbrev Date := Int

/-- `Date.yesterday` from `types.py`: the day before. -/
def Date.yesterday (d : Int) : Int := d - 1

/-- `Date.tomorrow` from `types.py`: the day after. -/
def Date.tomorrow (d : Int) : Int := d + 1

/-- Day index (days since 2020-01-01) of the 2020 calendar date `month`/`day`;
2020 is a leap year, so the days-before-month table is
Jan 0, Feb 31, Mar 60, Apr 91, May 121, Jun 152, Jul 182, Aug 213, Sep 244,
Oct 274, Nov 305, Dec 335. -/
def date2020 (month day : Nat) : Int :=
  Int.ofNat (([0, 0, 31, 60, 91, 121, 152, 182, 213, 244, 274, 305, 335].getD month 0) + day - 1)

/-- `DateRange` from `types.py`: an inclusive date range `{begin, end}`.
The Python field `end` is a Lean keyword and is rendered `end_`. -/
structure DateRange where
  begin : Int
  end_ : Int
deriving DecidableEq, Repr

/-- `Date.__contains__` branch of `DateRange.__contains__`:
`self.begin <= other <= self.end`. -/
def DateRange.mem (r : DateRange) (d : Int) : Bool :=
  decide (r.begin ≤ d ∧ d ≤ r.end_)

/-- `DateRange.__contains__` applied to a `DateRange`:
`other.begin in self and other.end in self`. -/
def DateRange.containsRange (self other : DateRange) : Bool :=
  self.mem other.begin && self.mem other.end_

/-- `DateRange.overlaps` from `types.py`:
true if either endpoint of `self` lies in `other`, or if
`self.begin < other.begin and self.end > other.end`. -/
def DateRange.overlaps (self other : DateRange) : Bool :=
  if other.mem self.begin || other.mem self.end_ then true
  else if decide (self.begin < other.begin) && decide (other.end_ < self.end_) then true
  else false

/-- `DateCoverage` from `types.py`: the set of ranges not yet covered. -/
structure DateCoverage where
  ranges : List DateRange
deriving DecidableEq, Repr

/-- `DateCoverage.__init__`: start with the single initial range. -/
def DateCoverage.init (initial_range : DateRange) : DateCoverage :=
  ⟨[initial_range]⟩

/-- One iteration of the loop body of `DateCoverage.cover` from `types.py`:
the fragments kept for one tracked range `r` against the `covered` range.
The four cases (drop, front-trim, back-trim, middle-split, keep) follow the
source's `if`/`elif` chain exactly. -/
def coverOne (covered r : DateRange) : List DateRange :=
  if covered.containsRange r then []
  else if covered.mem r.begin && !(covered.mem r.end_) then
    [⟨Date.tomorrow covered.end_, r.end_⟩]
  else if !(covered.mem r.begin) && covered.mem r.end_ then
    [⟨r.begin, Date.yesterday covered.begin⟩]
  else if r.containsRange covered then
    [⟨r.begin, Date.yesterday covered.begin⟩, ⟨Date.tomorrow covered.end_, r.end_⟩]
  else [r]

/-- `DateCoverage.cover` from `types.py`: replace the tracked ranges by the
fragments each of them keeps, in traversal order. -/
def DateCoverage.cover (dc : DateCoverage) (covered : DateRange) : DateCoverage :=
  ⟨dc.ranges.foldr (fun r acc => coverOne covered r ++ acc) []⟩

/-- `Invoice` from `types.py` (all non-range fields are opaque strings). -/
structure Invoice where
  type : String
  supplier : String
  invoice_number : String
  date : Int
  notes : String
  range : DateRange
  net : String
  amount : String
  tax : String
  path : String
deriving DecidableEq, Repr

/-- The deep copy of `self` with its range replaced, as built inside the loop
of `Invoice.split` (`copy.deepcopy` then assign `range.begin`/`range.end`). -/
def subInvoice (self : Invoice) (b e : Int) : Invoice :=
  { self with range := ⟨b, e⟩ }

/-- The `for split_date, people_count in split_dates` loop of `Invoice.split`
from `types.py`, with the mutable state passed explicitly:
arguments are the remaining list, `people_count_before` and `invoice_begin`;
the result is `(ret, people_count_before, invoice_begin, end_of_invoice)`.
Branches, in source order: `split_date == self.range.begin` does
`people_count_before = people_count; continue` (skipping the break test);
`split_date >= self.range.begin` appends the deep-copied sub-invoice
`[max(self.range.begin, invoice_begin), min(self.range.end,
split_date.yesterday())]` tagged with the old `people_count_before` and sets
`invoice_begin = split_date`; then `people_count_before = people_count`; then
`split_date > self.range.end` breaks with `end_of_invoice = True`. -/
def Invoice.splitLoop (self : Invoice) :
    List (Int × Int) → Int → Int → List (Invoice × Int) × Int × Int × Bool
  | [], pcb, ib => ([], pcb, ib, false)
  | (d, c) :: rest, pcb, ib =>
    if d = self.range.begin then
      Invoice.splitLoop self rest c ib
    else if self.range.begin ≤ d then
      if self.range.end_ < d then
        ([(subInvoice self (max self.range.begin ib) (min self.range.end_ (Date.yesterday d)), pcb)],
         c, d, true)
      else
        ((subInvoice self (max self.range.begin ib) (min self.range.end_ (Date.yesterday d)), pcb) ::
           (Invoice.splitLoop self rest c d).1,
         (Invoice.splitLoop self rest c d).2)
    else
      if self.range.end_ < d then ([], c, ib, true)
      else Invoice.splitLoop self rest c ib

/-- `Invoice.split` from `types.py`.  An empty `split_dates` list logs an
error (not modelled) and returns the empty list; otherwise
`people_count_before` is seeded with `split_dates[0][1]`, the loop runs, and
unless `end_of_invoice` was set a final deep copy with
`range.begin = invoice_begin` (and the original `range.end`) is appended,
tagged with the final `people_count_before`. -/
def Invoice.split (self : Invoice) (split_dates : List (Int × Int)) :
    List (Invoice × Int) :=
  match split_dates with
  | [] => []
  | (_, c0) :: _ =>
    match Invoice.splitLoop self split_dates c0 self.range.begin with
    | (ret, pcb, ib, eoi) =>
      if eoi then ret
      else ret ++ [({ self with range := ⟨ib, self.range.end_⟩ }, pcb)]

/-- `Tenant` from `types.py`; `moving_out` may be `None`. -/
structure Tenant where
  name : String
  appartement : String
  moving_in : Int
  moving_out : Option Int
  people : Int
  rent : String
  advance : String
deriving DecidableEq, Repr

/-- `Tenant.__contains__` from `types.py`: before `moving_in` is out; with a
`moving_out` set, in iff `date <= moving_out`; with `moving_out = None`,
always in from `moving_in` on. -/
def Tenant.contains (t : Tenant) (d : Int) : Bool :=
  if d < t.moving_in then false
  else
    match t.moving_out with
    | some mo => decide (d ≤ mo)
    | none => true

/-- `sum(t.people for t in tenants if date in t)` from
`get_people_count_changes` in `__init__.py`. -/
def peopleCount (tenants : List Tenant) (d : Int) : Int :=
  ((tenants.filter (fun t => t.contains d)).map (fun t => t.people)).sum

/-- The `while date <= range.end` loop of `get_people_count_changes` from
`__init__.py`, with the day count remaining as structural fuel (the loop runs
exactly `range.end - range.begin + 1` times since `date` advances by one day
per iteration).  Emits `(date, people_count)` whenever the count differs from
`people_count_before`. -/
def peopleChangesGo (tenants : List Tenant) : Nat → Int → Int → List (Int × Int)
  | 0, _, _ => []
  | Nat.succ n, date, pcb =>
    if peopleCount tenants date ≠ pcb then
      (date, peopleCount tenants date) ::
        peopleChangesGo tenants n (Date.tomorrow date) (peopleCount tenants date)
    else
      peopleChangesGo tenants n (Date.tomorrow date) (peopleCount tenants date)

/-- `get_people_count_changes` from `__init__.py`: walk every day of `rng`,
starting with the sentinel `people_count_before = -1`. -/
def get_people_count_changes (rng : DateRange) (tenants : List Tenant) :
    List (Int × Int) :=
  peopleChangesGo tenants (rng.end_ + 1 - rng.begin).toNat rng.begin (-1)

/-- `MeterValue` from `types.py`; `count` is an opaque cell string, `None`
for the "computed" placeholder inserted by `MeterManager.add_meter_value`. -/
structure MeterValue where
  name : String
  count : Option String
  date : Int
  notes : String
deriving DecidableEq, Repr

/-- Python `dict` insertion `values[date] = mv`: overwrite in place if the key
exists, otherwise append. -/
def dinsert : List (Int × MeterValue) → Int → MeterValue → List (Int × MeterValue)
  | [], k, v => [(k, v)]
  | (k', v') :: rest, k, v =>
    if k' = k then (k, v) :: rest else (k', v') :: dinsert rest k v

/-- Python `dict` lookup / `date in values` membership. -/
def dlookup : List (Int × MeterValue) → Int → Option MeterValue
  | [], _ => none
  | (k', v') :: rest, k => if k' = k then some v' else dlookup rest k

/-- Ordered insertion, used to model Python's `sorted`. -/
def insertSorted (x : Int) : List Int → List Int
  | [] => [x]
  | y :: ys => if x ≤ y then x :: y :: ys else y :: insertSorted x ys

/-- `sorted(list(keys))` from `MeterManager.__init__` (insertion sort; the
keys of a Python dict are distinct, so any stable comparison sort agrees). -/
def sortDates (l : List Int) : List Int := l.foldr insertSorted []

/-- `MeterManager` from `meter.py`: the per-meter reading dictionary, the
sorted list of measured dates, and the meter name. -/
structure MeterManager where
  values : List (Int × MeterValue)
  measured_dates : List Int
  meter_name : String
deriving DecidableEq, Repr

/-- `MeterManager.__init__` from `meter.py`: keep only the values of the given
meter name, key them by date (later rows overwrite earlier ones, as in the
Python dict comprehension), and record the sorted key list. -/
def mkMeterManager (meter_values : List MeterValue) (meter_name : String) : MeterManager :=
  let vals := (meter_values.filter (fun mv => mv.name == meter_name)).foldl
    (fun acc mv => dinsert acc mv.date mv) []
  ⟨vals, sortDates (vals.map (fun p => p.1)), meter_name⟩

/-- `MeterManager.add_meter_value` from `meter.py`: if a reading for `date`
exists the state is unchanged (the method just returns it); otherwise a
placeholder `MeterValue(name, None, date, 'Berechnet')` is inserted into
`values`.  Note the source never touches `_measured_dates` here. -/
def MeterManager.add_meter_value (m : MeterManager) (date : Int) : MeterManager :=
  match dlookup m.values date with
  | some _ => m
  | none =>
    { m with values := dinsert m.values date ⟨m.meter_name, none, date, "Berechnet"⟩ }

/-- `bisect.bisect_left` on the sorted `_measured_dates` list (linear form:
the index of the first element not less than `x`, which on a sorted list is
exactly what the Python binary search returns). -/
def bisect_left : List Int → Int → Nat
  | [], _ => 0
  | y :: ys, x => if y < x then bisect_left ys x + 1 else 0

/-- `MeterManager.__get_surrounding_dates` from `meter.py`: `bisect_left` into
`_measured_dates`; index 0 means no reading before `date`, an index past the
end means no reading after `date`; otherwise return the pair
`(measured_dates[idx - 1], measured_dates[idx])`. -/
def MeterManager.get_surrounding_dates (m : MeterManager) (date : Int) :
    Except String (Int × Int) :=
  let idx := bisect_left m.measured_dates date
  if idx = 0 then
    Except.error ("Kein Zaehlerstand vor dem " ++ toString date ++ " gefunden.")
  else if m.measured_dates.length ≤ idx then
    Except.error ("Kein Zaehlerstand nach dem " ++ toString date ++ " gefunden.")
  else
    Except.ok (m.measured_dates.getD (idx - 1) 0, m.measured_dates.getD idx 0)

/-- The interpolation formula emitted by `MeterManager.get_count_formula`:
the source builds the cell string
`=C{before}+(C{after}-C{before})/_xlfn.days(B{after},B{before})*_xlfn.days(B{date},B{before})`
where row `r` of a date `d` holds `d` in column B and the reading in column C.
We embed the formula by the three dates whose rows it cites. -/
structure CountFormula where
  before : Int
  after : Int
  query : Int
deriving DecidableEq, Repr

/-- Excel's `_xlfn.days(a, b)`: the plain calendar-day difference `a - b`
(no `+ 1`). -/
def xl_days (a b : Int) : Int := a - b

/-- `MeterManager.get_count_formula` from `meter.py`: look up the surrounding
dates and emit the interpolation formula over `(before, after, date)`. -/
def MeterManager.get_count_formula (m : MeterManager) (date : Int) :
    Except String CountFormula :=
  match m.get_surrounding_dates date with
  | Except.error e => Except.error e
  | Except.ok (b, a) => Except.ok ⟨b, a, date⟩

/-- Value denoted by the emitted formula, reading column C of the row of date
`d` as `vals d`:
`C(before) + (C(after) - C(before)) / days(after, before) * days(query, before)`. -/
def formulaValue (vals : Int → ℚ) (f : CountFormula) : ℚ :=
  vals f.before +
    (vals f.after - vals f.before) / ((xl_days f.after f.before : Int) : ℚ) *
      ((xl_days f.query f.before : Int) : ℚ)

/-- `Invoice` from `createbill.py` (it has no `path` field). -/
structure CBInvoice where
  type : String
  supplier : String
  invoice_number : String
  date : Int
  notes : String
  range : DateRange
  net : String
  amount : String
  tax : String
deriving DecidableEq, Repr

/-- The deep-copied sub-invoice built inside
`split_invoice_where_person_count_changes` in `createbill.py`. -/
def cbSubInvoice (invoice : CBInvoice) (b e : Int) : CBInvoice :=
  { invoice with range := ⟨b, e⟩ }

/-- The loop of `split_invoice_where_person_count_changes` from
`createbill.py`, state passed as in `Invoice.splitLoop`.  It is the same loop
except that the first test compares `split_date` against `range.begin` of the
separate `range` parameter `rng`, while the emission and break tests use
`invoice.range`. -/
def cbSplitLoop (invoice : CBInvoice) (rng : DateRange) :
    List (Int × Int) → Int → Int → List (CBInvoice × Int) × Int × Int × Bool
  | [], pcb, ib => ([], pcb, ib, false)
  | (d, c) :: rest, pcb, ib =>
    if d = rng.begin then
      cbSplitLoop invoice rng rest c ib
    else if invoice.range.begin ≤ d then
      if invoice.range.end_ < d then
        ([(cbSubInvoice invoice (max invoice.range.begin ib)
             (min invoice.range.end_ (Date.yesterday d)), pcb)],
         c, d, true)
      else
        ((cbSubInvoice invoice (max invoice.range.begin ib)
            (min invoice.range.end_ (Date.yesterday d)), pcb) ::
           (cbSplitLoop invoice rng rest c d).1,
         (cbSplitLoop invoice rng rest c d).2)
    else
      if invoice.range.end_ < d then ([], c, ib, true)
      else cbSplitLoop invoice rng rest c ib

/-- `split_invoice_where_person_count_changes` from `createbill.py`: the same
splitting loop, but `people_count_before` is seeded with `0` and there is no
empty-list early return. -/
def split_invoice_where_person_count_changes (split_dates : List (Int × Int))
    (invoice : CBInvoice) (rng : DateRange) : List (CBInvoice × Int) :=
  match cbSplitLoop invoice rng split_dates 0 invoice.range.begin with
  | (ret, pcb, ib, eoi) =>
    if eoi then ret
    else ret ++ [({ invoice with range := ⟨ib, invoice.range.end_⟩ }, pcb)]

/-- Projection of a `types.py` split result to the observable
(sub-invoice range, occupant count) pairs. -/
def invoicePairs (l : List (Invoice × Int)) : List (DateRange × Int) :=
  l.map (fun p => (p.1.range, p.2))

/-- Projection of a `createbill.py` split result to the observable
(sub-invoice range, occupant count) pairs. -/
def cbInvoicePairs (l : List (CBInvoice × Int)) : List (DateRange × Int) :=
  l.map (fun p => (p.1.range, p.2))

/-- `rs` is an ordered partition of the inclusive day interval `[lo, hi]`:
consecutive ranges are contiguous, every range is non-empty, the first starts
at `lo` and the last ends at `hi` (for `rs = []` this forces `lo = hi + 1`).
Such a list is ordered, non-overlapping, and its ranges concatenate exactly
to `[lo, hi]`. -/
def isPartition : Int → Int → List DateRange → Prop
  | lo, hi, [] => lo = hi + 1
  | lo, hi, r :: rs => r.begin = lo ∧ lo ≤ r.end_ ∧ isPartition (r.end_ + 1) hi rs

/-- Invoice used in the concrete split examples: it spans
[2020-01-01, 2020-12-31]. -/
def exInvoice : Invoice :=
  ⟨"Wasser", "Stadtwerke", "R1", date2020 1 5, "", ⟨date2020 1 1, date2020 12 31⟩,
    "100", "1", "0.19", "r1.pdf"⟩

/-- Tenant T1 of the occupancy example: apartment A1, 1 person,
2020-01-01 .. 2020-01-31. -/
def exT1 : Tenant := ⟨"T1", "A1", date2020 1 1, some (date2020 1 31), 1, "", ""⟩

/-- Tenant T2 of the occupancy example: apartment A1, 2 people,
2020-02-01 .. 2020-12-31. -/
def exT2 : Tenant := ⟨"T2", "A1", date2020 2 1, some (date2020 12 31), 2, "", ""⟩

/-- Tenant T3 of the occupancy example: apartment A2, 3 people,
2020-01-01 .. 2020-08-31. -/
def exT3 : Tenant := ⟨"T3", "A2", date2020 1 1, some (date2020 8 31), 3, "", ""⟩

/-- Tenant T3b of the occupancy example: apartment A2, 1 person,
2020-09-01 .. 2020-12-31. -/
def exT3b : Tenant := ⟨"T3b", "A2", date2020 9 1, some (date2020 12 31), 1, "", ""⟩

/-- The meter manager of the interpolation example: readings 15.6 on
2020-01-01 and 55.6 on 2020-02-01 of meter "Name". -/
def exMeterManager : MeterManager :=
  mkMeterManager
    [⟨"Name", some "15.6", date2020 1 1, ""⟩, ⟨"Name", some "55.6", date2020 2 1, ""⟩]
    "Name"

/-- Column-C reading of the interpolation example, per reading date. -/
def exVals : Int → ℚ :=
  fun d => if d = date2020 1 1 then (15.6 : ℚ) else if d = date2020 2 1 then (55.6 : ℚ) else 0

/-- A `createbill.py` invoice over [0, 10] used for the C10 comparison. -/
def exCBInvoice : CBInvoice :=
  ⟨"Strom", "S", "R2", 0, "", ⟨0, 10⟩, "50", "1", "0.19"⟩

/-- The `types.py` invoice matching `exCBInvoice`. -/
def exTInvoice : Invoice :=
  ⟨"Strom", "S", "R2", 0, "", ⟨0, 10⟩, "50", "1", "0.19", "r2.pdf"⟩

/-! ## Helper lemmas -/

/-- Membership test of `DateRange` unfolded to inequalities. -/
theorem DateRange.mem_iff {r : DateRange} {d : Int} :
    r.mem d = true ↔ (r.begin ≤ d ∧ d ≤ r.end_) := by
  simp [DateRange.mem]

/-- `DateRange.overlaps` unfolded: an endpoint of `self` lies in `other`, or
`self` strictly contains `other`. -/
theorem DateRange.overlaps_iff {a b : DateRange} :
    a.overlaps b = true ↔
      ((b.begin ≤ a.begin ∧ a.begin ≤ b.end_) ∨
       (b.begin ≤ a.end_ ∧ a.end_ ≤ b.end_) ∨
       (a.begin < b.begin ∧ b.end_ < a.end_)) := by
  unfold DateRange.overlaps
  split_ifs with h1 h2
  · simp only [true_iff]
    simp only [Bool.or_eq_true, DateRange.mem_iff] at h1
    tauto
  · simp only [true_iff]
    simp only [Bool.and_eq_true, decide_eq_true_eq] at h2
    tauto
  · simp only [Bool.false_eq_true, false_iff]
    simp only [Bool.or_eq_true, DateRange.mem_iff, not_or] at h1
    simp only [Bool.and_eq_true, decide_eq_true_eq, not_and] at h2
    push_neg at h1 h2 ⊢
    tauto

/-- Gluing two adjacent partitions. -/
theorem isPartition_append {m hi : Int} {rs rs' : List DateRange} :
    ∀ {lo : Int}, isPartition lo m rs → isPartition (m + 1) hi rs' →
      isPartition lo hi (rs ++ rs') := by
  induction rs with
  | nil =>
    intro lo h1 h2
    simp only [isPartition] at h1
    simpa [h1] using h2
  | cons r rest ih =>
    intro lo h1 h2
    obtain ⟨ha, hb, hc⟩ := h1
    exact ⟨ha, hb, ih hc h2⟩

/-- A partition of `[lo, hi]` forces `lo ≤ hi + 1`. -/
theorem isPartition_le {hi : Int} {rs : List DateRange} :
    ∀ {lo : Int}, isPartition lo hi rs → lo ≤ hi + 1 := by
  induction rs with
  | nil => intro lo h; simp only [isPartition] at h; omega
  | cons r rest ih =>
    intro lo h
    obtain ⟨ha, hb, hc⟩ := h
    have := ih hc
    omega

/-- A partition of `[lo, hi]` covers exactly the days of `[lo, hi]`. -/
theorem isPartition_any {hi : Int} {rs : List DateRange} :
    ∀ {lo : Int}, isPartition lo hi rs →
      ∀ d : Int, (rs.any fun r => r.mem d) = decide (lo ≤ d ∧ d ≤ hi) := by
  induction rs with
  | nil =>
    intro lo h d
    simp only [isPartition] at h
    simp only [List.any_nil]
    have : ¬(lo ≤ d ∧ d ≤ hi) := by omega
    simp [this]
  | cons r rest ih =>
    intro lo h d
    obtain ⟨ha, hb, hc⟩ := h
    have hrest := ih hc d
    have hle := isPartition_le hc
    simp only [List.any_cons]
    rw [hrest]
    simp only [DateRange.mem, ha]
    rw [Bool.eq_iff_iff]
    simp only [Bool.or_eq_true, decide_eq_true_eq]
    omega

/-! ## C7: splitting with an empty change-point list -/

/-- C7: for every invoice, `Invoice.split` with an empty change-point list
returns the empty list of sub-invoices (the source logs an error, which has no
effect on the returned data, and the invoice value itself is not modified —
the embedding is pure and each sub-invoice is a deep copy). -/
theorem c7_split_empty_returns_nil : ∀ inv : Invoice, inv.split [] = [] :=
  fun _ => rfl

/-! ## C8: overlaps on disjoint and strictly nested ranges -/

/-- C8: for valid ranges, if the two ranges share no date then `overlaps` is
false in both directions; if one strictly contains the other then `overlaps`
is true in both directions. -/
theorem c8_overlaps_disjoint_and_nested :
    ∀ a b : DateRange, a.begin ≤ a.end_ → b.begin ≤ b.end_ →
      ((∀ d : Int, ¬(a.mem d = true ∧ b.mem d = true)) →
        a.overlaps b = false ∧ b.overlaps a = false) ∧
      (a.begin < b.begin ∧ b.end_ < a.end_ →
        a.overlaps b = true ∧ b.overlaps a = true) := by
  intro a b ha hb
  constructor
  · intro h
    have h1 := h a.begin
    have h2 := h a.end_
    have h3 := h b.begin
    have h4 := h b.end_
    simp only [DateRange.mem_iff] at h1 h2 h3 h4
    constructor
    · rw [Bool.eq_false_iff, Ne, DateRange.overlaps_iff]
      intro hov
      omega
    · rw [Bool.eq_false_iff, Ne, DateRange.overlaps_iff]
      intro hov
      omega
  · intro hpq
    constructor
    · rw [DateRange.overlaps_iff]
      omega
    · rw [DateRange.overlaps_iff]
      omega

/-- Witness for C8 at concrete ranges: `[0,9]` and `[20,30]` are disjoint,
`[0,10]` strictly contains `[2,5]`. -/
theorem c8_overlaps_witness :
    (DateRange.overlaps ⟨0, 9⟩ ⟨20, 30⟩ = false ∧
     DateRange.overlaps ⟨20, 30⟩ ⟨0, 9⟩ = false) ∧
    (DateRange.overlaps ⟨0, 10⟩ ⟨2, 5⟩ = true ∧
     DateRange.overlaps ⟨2, 5⟩ ⟨0, 10⟩ = true) :=
  ⟨(c8_overlaps_disjoint_and_nested ⟨0, 9⟩ ⟨20, 30⟩ (by decide) (by decide)).1
      (by intro d; simp only [DateRange.mem_iff]; omega),
   (c8_overlaps_disjoint_and_nested ⟨0, 10⟩ ⟨2, 5⟩ (by decide) (by decide)).2
      (by constructor <;> decide)⟩

/-! ## C3: the occupancy aggregator -/

/-- Every entry the walk emits is dated no earlier than the current day and
carries the occupant count of its own date. -/
theorem peopleChangesGo_mem (tenants : List Tenant) :
    ∀ (n : Nat) (date : Int) (pcb : Int) (p : Int × Int),
      p ∈ peopleChangesGo tenants n date pcb →
      date ≤ p.1 ∧ p.2 = peopleCount tenants p.1 := by
  intro n
  induction n with
  | zero => intro date pcb p hp; simp [peopleChangesGo] at hp
  | succ n ih =>
    intro date pcb p hp
    simp only [peopleChangesGo] at hp
    by_cases hc : peopleCount tenants date ≠ pcb
    · rw [if_pos hc] at hp
      rcases List.mem_cons.mp hp with h | h
      · subst h; exact ⟨le_refl _, rfl⟩
      · have := ih (Date.tomorrow date) (peopleCount tenants date) p h
        unfold Date.tomorrow at this
        exact ⟨by omega, this.2⟩
    · rw [if_neg hc] at hp
      have := ih (Date.tomorrow date) (peopleCount tenants date) p hp
      unfold Date.tomorrow at this
      exact ⟨by omega, this.2⟩

/-- The dates the walk emits are strictly increasing. -/
theorem peopleChangesGo_pairwise (tenants : List Tenant) :
    ∀ (n : Nat) (date : Int) (pcb : Int),
      List.Pairwise (fun a b => a.1 < b.1) (peopleChangesGo tenants n date pcb) := by
  intro n
  induction n with
  | zero => intro date pcb; simp [peopleChangesGo]
  | succ n ih =>
    intro date pcb
    simp only [peopleChangesGo]
    by_cases hc : peopleCount tenants date ≠ pcb
    · rw [if_pos hc]
      refine List.pairwise_cons.mpr ⟨?_, ih (Date.tomorrow date) (peopleCount tenants date)⟩
      intro p hp
      have := (peopleChangesGo_mem tenants n (Date.tomorrow date) (peopleCount tenants date) p hp).1
      unfold Date.tomorrow at this
      omega
    · rw [if_neg hc]
      exact ih (Date.tomorrow date) (peopleCount tenants date)

/-- C3: `get_people_count_changes` returns change points strictly increasing
by date, each entry carrying the total occupant count effective from its date;
on the spec's example tenants T1(A1,1,2020-01-01..01-31),
T2(A1,2,2020-02-01..12-31), T3(A2,3,2020-01-01..08-31),
T3b(A2,1,2020-09-01..12-31) over [2020-01-01, 2020-12-31] it returns exactly
[(2020-01-01, 4), (2020-02-01, 5), (2020-09-01, 3)]. -/
theorem c3_people_count_changes :
    (∀ (rng : DateRange) (tenants : List Tenant),
        List.Pairwise (fun a b => a.1 < b.1) (get_people_count_changes rng tenants) ∧
        ∀ p ∈ get_people_count_changes rng tenants,
          p.2 = peopleCount tenants p.1) ∧
    get_people_count_changes ⟨date2020 1 1, date2020 12 31⟩ [exT1, exT2, exT3, exT3b] =
      [(date2020 1 1, 4), (date2020 2 1, 5), (date2020 9 1, 3)] := by
  constructor
  · intro rng tenants
    refine ⟨peopleChangesGo_pairwise tenants _ _ _, ?_⟩
    intro p hp
    exact (peopleChangesGo_mem tenants _ _ _ p hp).2
  · decide

/-! ## C2 and C9: the coverage tracker -/

/-- Membership in the list built by `DateCoverage.cover` comes from
`coverOne` on some tracked range. -/
theorem mem_cover_ranges {covered : DateRange} {l : List DateRange} {f : DateRange} :
    f ∈ l.foldr (fun r acc => coverOne covered r ++ acc) [] ↔
      ∃ r ∈ l, f ∈ coverOne covered r := by
  induction l with
  | nil => simp
  | cons r rs ih => simp [List.mem_append, ih]

/-- Every fragment kept by `coverOne` fails the `overlaps` test against the
covered range (only validity of the covered range is needed). -/
theorem coverOne_overlaps_false {covered r f : DateRange}
    (hc : covered.begin ≤ covered.end_) (hf : f ∈ coverOne covered r) :
    f.overlaps covered = false := by
  rw [Bool.eq_false_iff, Ne, DateRange.overlaps_iff]
  simp only [coverOne, DateRange.containsRange, DateRange.mem, Bool.and_eq_true,
    Bool.not_eq_true', decide_eq_true_eq, decide_eq_false_iff_not,
    Date.tomorrow, Date.yesterday] at hf
  split_ifs at hf with h1 h2 h3 h4
  · simp at hf
  · rw [List.mem_singleton] at hf
    subst hf
    dsimp only
    omega
  · rw [List.mem_singleton] at hf
    subst hf
    dsimp only
    omega
  · rcases List.mem_cons.mp hf with hf | hf
    · subst hf; dsimp only; omega
    · rw [List.mem_singleton] at hf; subst hf; dsimp only; omega
  · rw [List.mem_singleton] at hf
    subst hf
    omega

/-- Every fragment kept by `coverOne` is a valid range when the tracked range
and the covered range are valid. -/
theorem coverOne_valid {covered r f : DateRange}
    (hc : covered.begin ≤ covered.end_) (hr : r.begin ≤ r.end_)
    (hf : f ∈ coverOne covered r) : f.begin ≤ f.end_ := by
  simp only [coverOne, DateRange.containsRange, DateRange.mem, Bool.and_eq_true,
    Bool.not_eq_true', decide_eq_true_eq, decide_eq_false_iff_not,
    Date.tomorrow, Date.yesterday] at hf
  split_ifs at hf with h1 h2 h3 h4
  · simp at hf
  · rw [List.mem_singleton] at hf
    subst hf
    dsimp only
    omega
  · rw [List.mem_singleton] at hf
    subst hf
    dsimp only
    omega
  · rcases List.mem_cons.mp hf with hf | hf
    · subst hf; dsimp only; omega
    · rw [List.mem_singleton] at hf; subst hf; dsimp only; omega
  · rw [List.mem_singleton] at hf
    subst hf
    exact hr

/-- A valid range that fails the `overlaps` test against a valid covered range
is kept unchanged by `coverOne`. -/
theorem coverOne_of_overlaps_false {covered f : DateRange}
    (hc : covered.begin ≤ covered.end_) (hf : f.begin ≤ f.end_)
    (h : f.overlaps covered = false) : coverOne covered f = [f] := by
  rw [Bool.eq_false_iff, Ne, DateRange.overlaps_iff] at h
  simp only [coverOne, DateRange.containsRange, DateRange.mem, Bool.and_eq_true,
    Bool.not_eq_true', decide_eq_true_eq, decide_eq_false_iff_not,
    Date.tomorrow, Date.yesterday]
  split_ifs with h1 h2 h3 h4
  · exact absurd (Or.inl h1.1) h
  · exact absurd (Or.inl h2.1) h
  · exact absurd (Or.inr (Or.inl h3.2)) h
  · exact absurd (Or.inr (Or.inr (by omega))) h
  · rfl

/-- C2: after `cover(covered)`, no range remaining in the tracker overlaps
`covered` (hypotheses: the stored ranges and `covered` are valid). -/
theorem c2_cover_postcondition :
    ∀ (dc : DateCoverage) (covered : DateRange),
      (∀ r ∈ dc.ranges, r.begin ≤ r.end_) → covered.begin ≤ covered.end_ →
      ∀ f ∈ (dc.cover covered).ranges, f.overlaps covered = false := by
  intro dc covered _ hc f hf
  unfold DateCoverage.cover at hf
  obtain ⟨r, _, hfr⟩ := mem_cover_ranges.mp hf
  exact coverOne_overlaps_false hc hfr

/-- Witness for C2: covering February in a tracker holding all of 2020 leaves
the January fragment, which does not overlap the covered range. -/
theorem c2_cover_postcondition_witness :
    DateRange.overlaps ⟨0, 30⟩ ⟨31, 59⟩ = false :=
  c2_cover_postcondition (DateCoverage.init ⟨0, 365⟩) ⟨31, 59⟩
    (by decide) (by decide) ⟨0, 30⟩ (by decide)

/-- Folding `coverOne` over ranges it keeps unchanged is the identity. -/
theorem foldr_coverOne_id {covered : DateRange} :
    ∀ {l : List DateRange}, (∀ f ∈ l, coverOne covered f = [f]) →
      l.foldr (fun r acc => coverOne covered r ++ acc) [] = l := by
  intro l
  induction l with
  | nil => intro _; rfl
  | cons r rs ih =>
    intro h
    simp only [List.foldr_cons, h r (List.mem_cons_self r rs),
      ih (fun f hf => h f (List.mem_cons_of_mem r hf)), List.singleton_append]

/-- C9: `cover` is idempotent — covering the same valid range twice leaves the
tracker in the same state as covering it once. -/
theorem c9_cover_idempotent :
    ∀ (dc : DateCoverage) (covered : DateRange),
      (∀ r ∈ dc.ranges, r.begin ≤ r.end_) → covered.begin ≤ covered.end_ →
      (dc.cover covered).cover covered = dc.cover covered := by
  intro dc covered hv hc
  have hkeep : ∀ f ∈ (dc.cover covered).ranges, coverOne covered f = [f] := by
    intro f hf
    obtain ⟨r, hr, hfr⟩ := mem_cover_ranges.mp hf
    exact coverOne_of_overlaps_false hc
      (coverOne_valid hc (hv r hr) hfr)
      (coverOne_overlaps_false hc hfr)
  show DateCoverage.mk _ = dc.cover covered
  rw [foldr_coverOne_id hkeep]

/-- Witness for C9 at the same concrete tracker as the C2 witness. -/
theorem c9_cover_idempotent_witness :
    ((DateCoverage.init ⟨0, 365⟩).cover ⟨31, 59⟩).cover ⟨31, 59⟩ =
      (DateCoverage.init ⟨0, 365⟩).cover ⟨31, 59⟩ :=
  c9_cover_idempotent (DateCoverage.init ⟨0, 365⟩) ⟨31, 59⟩ (by decide) (by decide)

/-! ## C1: the invoice splitter partitions the invoice range -/

/-- Loop invariant of `Invoice.splitLoop` on a strictly increasing change-point
list: starting from `invoice_begin = ib` inside the invoice range, with every
change point past the invoice begin also past `ib`, the emitted sub-invoice
ranges form a partition — of `[ib, range.end]` when the loop broke with
`end_of_invoice`, and of `[ib, ib' - 1]` (with `ib ≤ ib' ≤ range.end` the
final `invoice_begin`) when it ran to the end of the list. -/
theorem splitLoop_partition (self : Invoice) :
    ∀ (l : List (Int × Int)) (pcb ib : Int),
      List.Pairwise (fun a b => a.1 < b.1) l →
      self.range.begin ≤ ib → ib ≤ self.range.end_ →
      (∀ p ∈ l, self.range.begin < p.1 → ib < p.1) →
      ((Invoice.splitLoop self l pcb ib).2.2.2 = true →
          isPartition ib self.range.end_
            ((Invoice.splitLoop self l pcb ib).1.map (fun q => q.1.range))) ∧
      ((Invoice.splitLoop self l pcb ib).2.2.2 = false →
          ib ≤ (Invoice.splitLoop self l pcb ib).2.2.1 ∧
          (Invoice.splitLoop self l pcb ib).2.2.1 ≤ self.range.end_ ∧
          isPartition ib ((Invoice.splitLoop self l pcb ib).2.2.1 - 1)
            ((Invoice.splitLoop self l pcb ib).1.map (fun q => q.1.range))) := by
  intro l
  induction l with
  | nil =>
    intro pcb ib _ hb he _
    constructor
    · intro h
      simp [Invoice.splitLoop] at h
    · intro _
      refine ⟨le_refl _, he, ?_⟩
      simp only [Invoice.splitLoop, List.map_nil, isPartition]
      omega
  | cons hd tl ih =>
    obtain ⟨d, c⟩ := hd
    intro pcb ib hpw hb he hgt
    obtain ⟨hd_lt, hpw'⟩ := List.pairwise_cons.mp hpw
    by_cases h1 : d = self.range.begin
    · simp only [Invoice.splitLoop, if_pos h1]
      exact ih c ib hpw' hb he (fun p hp h => hgt p (List.mem_cons_of_mem _ hp) h)
    · by_cases h2 : self.range.begin ≤ d
      · have hbd : self.range.begin < d := lt_of_le_of_ne h2 (Ne.symm h1)
        have hlt : ib < d := hgt (d, c) (List.mem_cons_self _ _) hbd
        by_cases h3 : self.range.end_ < d
        · simp only [Invoice.splitLoop, if_neg h1, if_pos h2, if_pos h3]
          constructor
          · intro _
            simp only [List.map_cons, List.map_nil, subInvoice, isPartition,
              Date.yesterday]
            refine ⟨by omega, by omega, by omega⟩
          · intro hfalse
            simp at hfalse
        · have hdE : d ≤ self.range.end_ := not_lt.mp h3
          have ihh := ih c d hpw' h2 hdE (fun p hp _ => hd_lt p hp)
          simp only [Invoice.splitLoop, if_neg h1, if_pos h2, if_neg h3]
          constructor
          · intro hE
            have hpart := ihh.1 hE
            simp only [List.map_cons, subInvoice, isPartition, Date.yesterday]
            refine ⟨by omega, by omega, ?_⟩
            have hmin : min self.range.end_ (d - 1) = d - 1 := by omega
            rw [hmin, show d - 1 + 1 = d by omega]
            exact hpart
          · intro hE
            obtain ⟨hle1, hle2, hpart⟩ := ihh.2 hE
            refine ⟨by omega, hle2, ?_⟩
            simp only [List.map_cons, subInvoice, isPartition, Date.yesterday]
            refine ⟨by omega, by omega, ?_⟩
            have hmin : min self.range.end_ (d - 1) = d - 1 := by omega
            rw [hmin, show d - 1 + 1 = d by omega]
            exact hpart
      · have h2' : d < self.range.begin := not_le.mp h2
        have h3 : ¬(self.range.end_ < d) := by omega
        simp only [Invoice.splitLoop, if_neg h1, if_neg h2, if_neg h3]
        exact ih c ib hpw' hb he (fun p hp h => hgt p (List.mem_cons_of_mem _ hp) h)

/-- C1 (amended): for every invoice with a valid range and every NONEMPTY
change-point list that is strictly increasing by date (as the occupancy
aggregator produces), `Invoice.split` returns sub-invoices whose ranges form
an ordered, contiguous, non-overlapping partition of `invoice.range`
(`isPartition`), so in particular the concatenated ranges cover exactly the
days of the invoice range; and the spec's concrete example — invoice
[2020-01-01, 2020-12-31] with split list [(2020-09-01,7), (2020-09-01,6)]
(which is not strictly increasing: the date repeats) — returns exactly 3
sub-invoices tagged 7, 7, 6, whose ranges are
[2020-01-01, 2020-08-31], the empty range [2020-09-01, 2020-08-31] and
[2020-09-01, 2020-12-31], and whose concatenation covers exactly the days of
the original range. -/
theorem c1_split_partition :
    (∀ (inv : Invoice) (l : List (Int × Int)),
        inv.range.begin ≤ inv.range.end_ → l ≠ [] →
        List.Pairwise (fun a b => a.1 < b.1) l →
        isPartition inv.range.begin inv.range.end_
          ((inv.split l).map (fun q => q.1.range)) ∧
        ∀ d : Int,
          (((inv.split l).map (fun q => q.1.range)).any (fun r => r.mem d)) =
            inv.range.mem d) ∧
    (invoicePairs (exInvoice.split [(date2020 9 1, 7), (date2020 9 1, 6)]) =
        [(⟨date2020 1 1, date2020 8 31⟩, 7), (⟨date2020 9 1, date2020 8 31⟩, 7),
         (⟨date2020 9 1, date2020 12 31⟩, 6)] ∧
     ((exInvoice.split [(date2020 9 1, 7), (date2020 9 1, 6)]).map (fun q => q.2)) =
        [7, 7, 6] ∧
     ∀ d : Int,
       (((exInvoice.split [(date2020 9 1, 7), (date2020 9 1, 6)]).map
           (fun q => q.1.range)).any (fun r => r.mem d)) = exInvoice.range.mem d) := by
  constructor
  · intro inv l hv hne hpw
    have hmain : isPartition inv.range.begin inv.range.end_
        ((inv.split l).map (fun q => q.1.range)) := by
      match l, hne with
      | (d0, c0) :: rest, _ =>
        have H := splitLoop_partition inv ((d0, c0) :: rest) c0 inv.range.begin
          hpw (le_refl _) hv (fun p _ h => h)
        rcases hX : Invoice.splitLoop inv ((d0, c0) :: rest) c0 inv.range.begin with
          ⟨ret, pcb, ib, eoi⟩
        rw [hX] at H
        dsimp only at H
        show isPartition inv.range.begin inv.range.end_
          ((Invoice.split inv ((d0, c0) :: rest)).map (fun q => q.1.range))
        simp only [Invoice.split, hX]
        cases eoi with
        | true =>
          simpa using H.1 rfl
        | false =>
          obtain ⟨hle1, hle2, hpart⟩ := H.2 rfl
          simp only [if_neg (Bool.false_ne_true), List.map_append, List.map_cons,
            List.map_nil]
          refine isPartition_append hpart ?_
          rw [show ib - 1 + 1 = ib by omega]
          exact ⟨rfl, hle2, by simp only [isPartition]⟩
    refine ⟨hmain, ?_⟩
    intro d
    rw [isPartition_any hmain d, DateRange.mem]
  · refine ⟨by decide, by decide, ?_⟩
    intro d
    have hres : ((exInvoice.split [(date2020 9 1, 7), (date2020 9 1, 6)]).map
        (fun q => q.1.range)) = [⟨0, 243⟩, ⟨244, 243⟩, ⟨244, 365⟩] := by decide
    have hrng : exInvoice.range = ⟨0, 365⟩ := by decide
    rw [hres, hrng]
    simp only [List.any_cons, List.any_nil, DateRange.mem]
    rw [Bool.eq_iff_iff]
    simp only [Bool.or_eq_true, decide_eq_true_eq, Bool.false_eq_true, or_false]
    omega

/-- Counterexample to C1 as stated: for the empty change-point list (which the
claim's "every change-point list" includes), `split` returns no sub-invoices,
so the concatenated ranges do not reconstruct the invoice range; and for the
unsorted list [(5, 1), (3, 2)] over the invoice [0, 10] the returned
sub-invoice ranges [0, 4] and [3, 10] both contain day 3, so they are not
non-overlapping either — forcing the nonempty and strictly-increasing
restrictions of the amendment. -/
theorem c1_split_partition_counterexample :
    (exInvoice.split [] = [] ∧
     ¬ isPartition exInvoice.range.begin exInvoice.range.end_
        ((exInvoice.split []).map (fun q => q.1.range))) ∧
    (invoicePairs (exTInvoice.split [(5, 1), (3, 2)]) =
        [(⟨0, 4⟩, 1), (⟨5, 2⟩, 1), (⟨3, 10⟩, 2)] ∧
     DateRange.mem ⟨0, 4⟩ 3 = true ∧ DateRange.mem ⟨3, 10⟩ 3 = true) := by
  refine ⟨⟨rfl, ?_⟩, by decide, by decide, by decide⟩
  intro h
  rw [show ((exInvoice.split []).map (fun q => q.1.range)) = [] from rfl] at h
  simp only [isPartition] at h
  exact absurd h (by decide)

/-- Witness for the amended C1 at a concrete sorted split list: the resulting
sub-invoice ranges partition the invoice range, and the day 2020-06-01 is
covered by exactly the partition. -/
theorem c1_split_partition_witness :
    isPartition exInvoice.range.begin exInvoice.range.end_
        ((exInvoice.split [(date2020 9 1, 5)]).map (fun q => q.1.range)) ∧
    (((exInvoice.split [(date2020 9 1, 5)]).map (fun q => q.1.range)).any
        (fun r => r.mem (date2020 6 1))) = exInvoice.range.mem (date2020 6 1) :=
  have H := c1_split_partition.1 exInvoice [(date2020 9 1, 5)] (by decide) (by decide)
    (by simp)
  ⟨H.1, H.2 (date2020 6 1)⟩

/-! ## C5: the surrounding-dates lookup -/

/-- `getD` at an in-range index is `get`. -/
theorem getD_eq_get {l : List Int} {i : Nat} (h : i < l.length) :
    l.getD i 0 = l.get ⟨i, h⟩ := by
  simp [List.getD_eq_getElem?_getD, List.getElem?_eq_getElem h]

/-- `getD` at an in-range index is a member. -/
theorem getD_mem_of_lt {l : List Int} {i : Nat} (h : i < l.length) :
    l.getD i 0 ∈ l := by
  rw [getD_eq_get h]
  exact List.get_mem l i h

/-- On a strictly sorted list, `getD` is monotone in the index. -/
theorem sorted_getD_mono {l : List Int} (hs : List.Pairwise (fun a b => a < b) l) :
    ∀ {i j : Nat}, i ≤ j → j < l.length → l.getD i 0 ≤ l.getD j 0 := by
  intro i j hij hj
  rcases Nat.lt_or_ge i j with h | h
  · have := (List.pairwise_iff_get.mp hs) ⟨i, by omega⟩ ⟨j, hj⟩ (by simpa using h)
    rw [getD_eq_get (show i < l.length by omega), getD_eq_get hj]
    exact le_of_lt this
  · have : i = j := by omega
    subst this
    exact le_refl _

/-- `bisect_left` never exceeds the list length. -/
theorem bisect_left_le_length : ∀ (l : List Int) (x : Int), bisect_left l x ≤ l.length := by
  intro l x
  induction l with
  | nil => simp [bisect_left]
  | cons y ys ih =>
    by_cases h : y < x
    · simp only [bisect_left, if_pos h, List.length_cons]
      omega
    · simp only [bisect_left, if_neg h, List.length_cons]
      omega

/-- Every element strictly before the `bisect_left` index is less than the
probe. -/
theorem bisect_left_getD_lt :
    ∀ (l : List Int) (x : Int) (i : Nat), i < bisect_left l x → l.getD i 0 < x := by
  intro l
  induction l with
  | nil => intro x i h; simp [bisect_left] at h
  | cons y ys ih =>
    intro x i h
    by_cases hy : y < x
    · rw [bisect_left, if_pos hy] at h
      cases i with
      | zero => simpa using hy
      | succ n =>
        rw [List.getD_cons_succ]
        exact ih x n (by omega)
    · rw [bisect_left, if_neg hy] at h
      omega

/-- On a strictly sorted list, every element at or after the `bisect_left`
index is at least the probe. -/
theorem bisect_left_le_getD {l : List Int} (hs : List.Pairwise (fun a b => a < b) l) :
    ∀ (x : Int) (i : Nat), bisect_left l x ≤ i → i < l.length → x ≤ l.getD i 0 := by
  induction l with
  | nil => intro x i _ h; simp at h
  | cons y ys ih =>
    intro x i hbi hi
    obtain ⟨hy_lt, hs'⟩ := List.pairwise_cons.mp hs
    by_cases hy : y < x
    · rw [bisect_left, if_pos hy] at hbi
      cases i with
      | zero => omega
      | succ n =>
        rw [List.getD_cons_succ]
        exact ih hs' x n (by omega) (by simpa using hi)
    · push_neg at hy
      cases i with
      | zero => simpa using hy
      | succ n =>
        rw [List.getD_cons_succ]
        have hmem : ys.getD n 0 ∈ ys := getD_mem_of_lt (by simpa using hi)
        have := hy_lt _ hmem
        omega

/-- `bisect_left` returns the full length exactly when every element is less
than the probe. -/
theorem bisect_left_eq_length_iff :
    ∀ (l : List Int) (x : Int), bisect_left l x = l.length ↔ ∀ y ∈ l, y < x := by
  intro l x
  induction l with
  | nil => simp [bisect_left]
  | cons y ys ih =>
    by_cases h : y < x
    · rw [bisect_left, if_pos h]
      simp only [List.length_cons, Nat.add_right_cancel_iff, ih, List.mem_cons]
      constructor
      · rintro hall z (rfl | hz)
        · exact h
        · exact hall z hz
      · intro hall z hz
        exact hall z (Or.inr hz)
    · rw [bisect_left, if_neg h]
      simp only [List.length_cons]
      constructor
      · intro h0
        omega
      · intro hall
        exact absurd (hall y (List.mem_cons_self y ys)) h

/-- `bisect_left` on a cons is zero exactly when the head is not less than
the probe. -/
theorem bisect_left_cons_eq_zero_iff (y : Int) (ys : List Int) (x : Int) :
    bisect_left (y :: ys) x = 0 ↔ ¬ (y < x) := by
  by_cases h : y < x
  · rw [bisect_left, if_pos h]
    simp [h]
  · rw [bisect_left, if_neg h]
    simp [h]

/-- `MeterManager.__get_surrounding_dates` written out (`rfl` since the `let`
in the definition zeta-reduces). -/
theorem get_surrounding_eq (m : MeterManager) (q : Int) :
    m.get_surrounding_dates q =
      (if bisect_left m.measured_dates q = 0 then
        Except.error ("Kein Zaehlerstand vor dem " ++ toString q ++ " gefunden.")
      else if m.measured_dates.length ≤ bisect_left m.measured_dates q then
        Except.error ("Kein Zaehlerstand nach dem " ++ toString q ++ " gefunden.")
      else
        Except.ok (m.measured_dates.getD (bisect_left m.measured_dates q - 1) 0,
          m.measured_dates.getD (bisect_left m.measured_dates q) 0)) := rfl

/-- C5: for a query date not among the (sorted, nonempty) stored reading
dates, the surrounding-dates lookup fails with the meter lookup error exactly
when the date lies before the first or after the last known reading;
otherwise it returns the tightest bracket `(before, after)` with
`before < date < after` (both are stored dates, and every stored date lies
at or before `before` or at or after `after`). -/
theorem c5_get_surrounding_dates :
    ∀ (m : MeterManager) (q : Int),
      List.Pairwise (fun a b => a < b) m.measured_dates →
      m.measured_dates ≠ [] →
      q ∉ m.measured_dates →
      ((∃ e, m.get_surrounding_dates q = Except.error e) ↔
        (q < m.measured_dates.getD 0 0 ∨
         m.measured_dates.getD (m.measured_dates.length - 1) 0 < q)) ∧
      (∀ b a, m.get_surrounding_dates q = Except.ok (b, a) →
        b ∈ m.measured_dates ∧ a ∈ m.measured_dates ∧ b < q ∧ q < a ∧
        ∀ d ∈ m.measured_dates, d ≤ b ∨ a ≤ d) := by
  intro m q hs hne hq
  have hlen : 0 < m.measured_dates.length := List.length_pos.mpr hne
  have hble := bisect_left_le_length m.measured_dates q
  rw [get_surrounding_eq]
  split_ifs with h0 hL
  · refine ⟨⟨fun _ => Or.inl ?_, fun _ => ⟨_, rfl⟩⟩, fun b a h => absurd h (by simp)⟩
    rcases hll : m.measured_dates with _ | ⟨y, ys⟩
    · rw [hll] at hlen; simp at hlen
    · rw [hll] at h0 hq
      have hy := (bisect_left_cons_eq_zero_iff y ys q).mp h0
      have hqy : q ≠ y := fun h => hq (h ▸ List.mem_cons_self y ys)
      simp only [List.getD_cons_zero]
      omega
  · refine ⟨⟨fun _ => Or.inr ?_, fun _ => ⟨_, rfl⟩⟩, fun b a h => absurd h (by simp)⟩
    have heq : bisect_left m.measured_dates q = m.measured_dates.length := by omega
    have hall := (bisect_left_eq_length_iff m.measured_dates q).mp heq
    exact hall _ (getD_mem_of_lt (by omega))
  · have hidx : 0 < bisect_left m.measured_dates q := Nat.pos_of_ne_zero h0
    have hidxlen : bisect_left m.measured_dates q < m.measured_dates.length := by omega
    constructor
    · constructor
      · intro ⟨e, he⟩
        exact absurd he (by simp)
      · intro hcase
        exfalso
        rcases hcase with hlt | hgt
        · have := bisect_left_getD_lt m.measured_dates q 0 hidx
          omega
        · have := bisect_left_le_getD hs q (m.measured_dates.length - 1)
            (by omega) (by omega)
          omega
    · intro b a hok
      have hpair := Except.ok.inj hok
      have hb : m.measured_dates.getD (bisect_left m.measured_dates q - 1) 0 = b :=
        congrArg Prod.fst hpair
      have ha : m.measured_dates.getD (bisect_left m.measured_dates q) 0 = a :=
        congrArg Prod.snd hpair
      subst hb
      subst ha
      refine ⟨getD_mem_of_lt (by omega), getD_mem_of_lt hidxlen, ?_, ?_, ?_⟩
      · exact bisect_left_getD_lt _ q _ (by omega)
      · have hle := bisect_left_le_getD hs q _ (le_refl _) hidxlen
        have hmem : m.measured_dates.getD (bisect_left m.measured_dates q) 0 ∈
            m.measured_dates := getD_mem_of_lt hidxlen
        have hne2 : q ≠ m.measured_dates.getD (bisect_left m.measured_dates q) 0 :=
          fun h => hq (h ▸ hmem)
        omega
      · intro d hd
        obtain ⟨⟨j, hj⟩, hn⟩ := List.mem_iff_get.mp hd
        rw [← hn, ← getD_eq_get hj]
        by_cases hcmp : j ≤ bisect_left m.measured_dates q - 1
        · exact Or.inl (sorted_getD_mono hs hcmp (by omega))
        · exact Or.inr (sorted_getD_mono hs (by omega) hj)

/-- Witness for C5 at the interpolation example manager: the query 2020-01-15
succeeds with the tightest bracket (2020-01-01, 2020-02-01) of stored dates. -/
theorem c5_get_surrounding_dates_witness :
    date2020 1 1 ∈ exMeterManager.measured_dates ∧
    date2020 2 1 ∈ exMeterManager.measured_dates ∧
    date2020 1 1 < date2020 1 15 ∧ date2020 1 15 < date2020 2 1 ∧
    (date2020 2 1 ≤ date2020 1 1 ∨ date2020 2 1 ≤ date2020 2 1) :=
  have H := (c5_get_surrounding_dates exMeterManager (date2020 1 15) (by decide)
    (by decide) (by decide)).2 (date2020 1 1) (date2020 2 1) rfl
  ⟨H.1, H.2.1, H.2.2.1, H.2.2.2.1, H.2.2.2.2 (date2020 2 1) (by decide)⟩

/-! ## C4: the interpolation formula -/

/-- C4: whenever `get_count_formula` succeeds it emits the formula over the
bracket returned by the surrounding-dates lookup, and the value that formula
denotes is `value(before) + (value(after) - value(before)) / days(after,
before) * days(date, before)` with `days(a, b) = a - b` (a plain calendar-day
difference, no `+ 1`); on the example readings 15.6 @2020-01-01 and 55.6
@2020-02-01 of meter "Name", estimating 2020-01-15 uses the bracket
(2020-01-01, 2020-02-01) and yields `15.6 + (55.6 - 15.6) / 31 * 14`. -/
theorem c4_interpolation :
    (∀ (m : MeterManager) (q : Int) (f : CountFormula),
        m.get_count_formula q = Except.ok f →
        f.query = q ∧
        m.get_surrounding_dates q = Except.ok (f.before, f.after) ∧
        ∀ vals : Int → ℚ,
          formulaValue vals f =
            vals f.before +
              (vals f.after - vals f.before) / ((f.after - f.before : Int) : ℚ) *
                ((q - f.before : Int) : ℚ)) ∧
    (exMeterManager.get_count_formula (date2020 1 15) =
        Except.ok ⟨date2020 1 1, date2020 2 1, date2020 1 15⟩ ∧
     formulaValue exVals ⟨date2020 1 1, date2020 2 1, date2020 1 15⟩ =
        (15.6 : ℚ) + ((55.6 : ℚ) - (15.6 : ℚ)) / 31 * 14) := by
  constructor
  · intro m q f hok
    unfold MeterManager.get_count_formula at hok
    rcases hsur : m.get_surrounding_dates q with e | ⟨b, a⟩
    · rw [hsur] at hok
      exact absurd hok (by simp)
    · rw [hsur] at hok
      have hf := Except.ok.inj hok
      subst hf
      exact ⟨rfl, rfl, fun vals => rfl⟩
  · constructor
    · rfl
    · have h1 : date2020 1 1 = 0 := by decide
      have h2 : date2020 2 1 = 31 := by decide
      have h15 : date2020 1 15 = 14 := by decide
      rw [show (⟨date2020 1 1, date2020 2 1, date2020 1 15⟩ : CountFormula) =
        ⟨0, 31, 14⟩ by rw [h1, h2, h15]]
      unfold formulaValue exVals xl_days
      rw [h1, h2]
      norm_num

/-- Witness for C4 at the example manager and query, with the column-C values
read by `exVals`. -/
theorem c4_interpolation_witness :
    exMeterManager.get_surrounding_dates (date2020 1 15) =
      Except.ok (date2020 1 1, date2020 2 1) ∧
    formulaValue exVals ⟨date2020 1 1, date2020 2 1, date2020 1 15⟩ =
      exVals (date2020 1 1) +
        (exVals (date2020 2 1) - exVals (date2020 1 1)) /
          ((date2020 2 1 - date2020 1 1 : Int) : ℚ) *
          ((date2020 1 15 - date2020 1 1 : Int) : ℚ) :=
  have H := c4_interpolation.1 exMeterManager (date2020 1 15)
    ⟨date2020 1 1, date2020 2 1, date2020 1 15⟩ rfl
  ⟨H.2.1, H.2.2 exVals⟩

/-! ## C6: the meter manager's date list and add_meter_value -/

/-- Looking up the key just inserted by `dinsert` finds the new value. -/
theorem dlookup_dinsert_self :
    ∀ (l : List (Int × MeterValue)) (k : Int) (v : MeterValue),
      dlookup (dinsert l k v) k = some v := by
  intro l k v
  induction l with
  | nil => simp [dinsert, dlookup]
  | cons p rest ih =>
    obtain ⟨k', v'⟩ := p
    by_cases h : k' = k
    · simp [dinsert, dlookup, h]
    · simp [dinsert, dlookup, h, ih]

/-- Looking up a different key is unaffected by `dinsert`. -/
theorem dlookup_dinsert_ne :
    ∀ (l : List (Int × MeterValue)) (k : Int) (v : MeterValue) (k' : Int),
      k' ≠ k → dlookup (dinsert l k v) k' = dlookup l k' := by
  intro l k v k' hne
  induction l with
  | nil =>
    simp only [dinsert, dlookup]
    rw [if_neg (fun h => hne h.symm)]
  | cons p rest ih =>
    obtain ⟨k0, v0⟩ := p
    by_cases h : k0 = k
    · subst h
      simp only [dinsert, if_pos rfl, dlookup]
      rw [if_neg (fun h => hne h.symm), if_neg (fun h => hne h.symm)]
    · simp only [dinsert, if_neg h, dlookup, ih]

/-- `add_meter_value` is a no-op when the date already has a reading. -/
theorem add_meter_value_noop (m : MeterManager) (d : Int) (v : MeterValue)
    (h : dlookup m.values d = some v) : m.add_meter_value d = m := by
  unfold MeterManager.add_meter_value
  rw [h]

/-- `add_meter_value` on a missing date inserts exactly the "computed"
placeholder. -/
theorem add_meter_value_insert (m : MeterManager) (d : Int)
    (h : dlookup m.values d = none) :
    (m.add_meter_value d).values =
      dinsert m.values d ⟨m.meter_name, none, d, "Berechnet"⟩ := by
  unfold MeterManager.add_meter_value
  rw [h]

/-- C6 (amended): at construction `measured_dates` is the sorted key list of
the `values` mapping, but `add_meter_value` never touches `measured_dates`
(the source does not resort or insert there), so after an insertion the list
is the sorted key list of the ORIGINAL mapping, not of the updated one.  The
idempotence half of the claim holds: if the date already has a reading the
call is a no-op; otherwise it inserts exactly the placeholder
`MeterValue(name, None, date, 'Berechnet')` (the "computed" note) leaving all
other dates' readings unchanged; and calling it twice equals calling it
once. -/
theorem c6_add_meter_value :
    (∀ (mvs : List MeterValue) (name : String),
        (mkMeterManager mvs name).measured_dates =
          sortDates ((mkMeterManager mvs name).values.map (fun p => p.1))) ∧
    (∀ (m : MeterManager) (d : Int),
        (m.add_meter_value d).measured_dates = m.measured_dates) ∧
    (∀ (m : MeterManager) (d : Int) (v : MeterValue),
        dlookup m.values d = some v → m.add_meter_value d = m) ∧
    (∀ (m : MeterManager) (d : Int),
        dlookup m.values d = none →
          dlookup (m.add_meter_value d).values d =
            some ⟨m.meter_name, none, d, "Berechnet"⟩ ∧
          ∀ d' : Int, d' ≠ d →
            dlookup (m.add_meter_value d).values d' = dlookup m.values d') ∧
    (∀ (m : MeterManager) (d : Int),
        (m.add_meter_value d).add_meter_value d = m.add_meter_value d) := by
  refine ⟨fun _ _ => rfl, ?_, add_meter_value_noop, ?_, ?_⟩
  · intro m d
    unfold MeterManager.add_meter_value
    cases h : dlookup m.values d <;> rfl
  · intro m d h
    rw [add_meter_value_insert m d h]
    exact ⟨dlookup_dinsert_self m.values d _,
      fun d' hne => dlookup_dinsert_ne m.values d _ d' hne⟩
  · intro m d
    cases h : dlookup m.values d with
    | some v =>
      have e := add_meter_value_noop m d v h
      rw [e]
      exact e
    | none =>
      have e2 : dlookup (m.add_meter_value d).values d =
          some ⟨m.meter_name, none, d, "Berechnet"⟩ := by
        rw [add_meter_value_insert m d h]
        exact dlookup_dinsert_self m.values d _
      exact add_meter_value_noop (m.add_meter_value d) d _ e2

/-- Counterexample to C6 as stated: starting from an empty manager, one
`add_meter_value` call leaves `measured_dates` empty while the values mapping
now has a key, so the sorted-key-list sync is broken after add calls. -/
theorem c6_add_meter_value_counterexample :
    ((mkMeterManager [] "X").add_meter_value 0).measured_dates ≠
      sortDates ((((mkMeterManager [] "X").add_meter_value 0).values).map
        (fun p => p.1)) := by
  decide

/-- Witness for the amended C6 at a concrete manager and date. -/
theorem c6_add_meter_value_witness :
    dlookup ((mkMeterManager [] "X").add_meter_value 5).values 5 =
      some ⟨"X", none, 5, "Berechnet"⟩ ∧
    ((mkMeterManager [] "X").add_meter_value 5).measured_dates =
      (mkMeterManager [] "X").measured_dates :=
  ⟨(c6_add_meter_value.2.2.2.1 (mkMeterManager [] "X") 5 rfl).1,
    c6_add_meter_value.2.1 (mkMeterManager [] "X") 5⟩

/-! ## C10: the two invoice-splitting implementations -/

/-- With the `range` parameter equal to the invoice's own range, the
`createbill.py` splitting loop and the `types.py` splitting loop agree on the
emitted (range, count) pairs and on the final loop state, from any common
starting state. -/
theorem cbSplitLoop_eq (cb : CBInvoice) (inv : Invoice) (hr : cb.range = inv.range) :
    ∀ (l : List (Int × Int)) (pcb ib : Int),
      cbInvoicePairs (cbSplitLoop cb cb.range l pcb ib).1 =
        invoicePairs (Invoice.splitLoop inv l pcb ib).1 ∧
      (cbSplitLoop cb cb.range l pcb ib).2 = (Invoice.splitLoop inv l pcb ib).2 := by
  have hrb : cb.range.begin = inv.range.begin := by rw [hr]
  have hre : cb.range.end_ = inv.range.end_ := by rw [hr]
  intro l
  induction l with
  | nil => intro pcb ib; exact ⟨rfl, rfl⟩
  | cons hd tl ih =>
    obtain ⟨d, c⟩ := hd
    intro pcb ib
    by_cases h1 : d = inv.range.begin
    · have h1' : d = cb.range.begin := by rw [hrb]; exact h1
      simp only [cbSplitLoop, Invoice.splitLoop, if_pos h1, if_pos h1']
      exact ih c ib
    · have h1' : ¬(d = cb.range.begin) := by rw [hrb]; exact h1
      by_cases h2 : inv.range.begin ≤ d
      · have h2' : cb.range.begin ≤ d := by rw [hrb]; exact h2
        by_cases h3 : inv.range.end_ < d
        · have h3' : cb.range.end_ < d := by rw [hre]; exact h3
          simp only [cbSplitLoop, Invoice.splitLoop, if_neg h1, if_neg h1',
            if_pos h2, if_pos h2', if_pos h3, if_pos h3']
          constructor
          · simp only [cbInvoicePairs, invoicePairs, List.map_cons, List.map_nil,
              cbSubInvoice, subInvoice, hrb, hre]
          · trivial
        · have h3' : ¬(cb.range.end_ < d) := by rw [hre]; exact h3
          simp only [cbSplitLoop, Invoice.splitLoop, if_neg h1, if_neg h1',
            if_pos h2, if_pos h2', if_neg h3, if_neg h3']
          obtain ⟨ihp, ihs⟩ := ih c d
          constructor
          · simp only [cbInvoicePairs, invoicePairs, List.map_cons,
              cbSubInvoice, subInvoice, hrb, hre]
            simp only [cbInvoicePairs, invoicePairs] at ihp
            rw [ihp]
          · exact ihs
      · have h2' : ¬(cb.range.begin ≤ d) := by rw [hrb]; exact h2
        by_cases h3 : inv.range.end_ < d
        · have h3' : cb.range.end_ < d := by rw [hre]; exact h3
          simp only [cbSplitLoop, Invoice.splitLoop, if_neg h1, if_neg h1',
            if_neg h2, if_neg h2', if_pos h3, if_pos h3']
          exact ⟨rfl, trivial⟩
        · have h3' : ¬(cb.range.end_ < d) := by rw [hre]; exact h3
          simp only [cbSplitLoop, Invoice.splitLoop, if_neg h1, if_neg h1',
            if_neg h2, if_neg h2', if_neg h3, if_neg h3']
          exact ih c ib

/-- C10 (amended): `split_invoice_where_person_count_changes` called with
`range = invoice.range` and `Invoice.split` produce the same sequence of
(sub-invoice range, occupant count) pairs whenever the change-point list is
nonempty and its first date is at or before the invoice range's begin (as for
aggregator output covering the invoice start; the differing seeds — 0 in
`createbill.py`, the first change point's count in `types.py` — are then both
overwritten before any pair is emitted).  In general the two differ: on the
empty list `createbill.py` returns one pair tagged 0 while `types.py` returns
none, and when the first change date lies past the invoice begin the first
emitted pair is tagged 0 by `createbill.py` but with the first change point's
count by `types.py`. -/
theorem c10_split_agree :
    ∀ (cb : CBInvoice) (inv : Invoice) (d c : Int) (rest : List (Int × Int)),
      cb.range = inv.range → d ≤ inv.range.begin →
      cbInvoicePairs (split_invoice_where_person_count_changes ((d, c) :: rest) cb cb.range) =
        invoicePairs (inv.split ((d, c) :: rest)) := by
  intro cb inv d c rest hr hle
  have hrb : cb.range.begin = inv.range.begin := by rw [hr]
  have hre : cb.range.end_ = inv.range.end_ := by rw [hr]
  have key := cbSplitLoop_eq cb inv hr
  have hstep :
      cbInvoicePairs (cbSplitLoop cb cb.range ((d, c) :: rest) 0 cb.range.begin).1 =
        invoicePairs (Invoice.splitLoop inv ((d, c) :: rest) c inv.range.begin).1 ∧
      (cbSplitLoop cb cb.range ((d, c) :: rest) 0 cb.range.begin).2 =
        (Invoice.splitLoop inv ((d, c) :: rest) c inv.range.begin).2 := by
    by_cases h1 : d = inv.range.begin
    · have h1' : d = cb.range.begin := by rw [hrb]; exact h1
      simp only [cbSplitLoop, Invoice.splitLoop, if_pos h1, if_pos h1']
      rw [hrb]
      exact key rest c inv.range.begin
    · have hlt : d < inv.range.begin := lt_of_le_of_ne hle h1
      have h1' : ¬(d = cb.range.begin) := by rw [hrb]; exact h1
      have h2 : ¬(inv.range.begin ≤ d) := by omega
      have h2' : ¬(cb.range.begin ≤ d) := by rw [hrb]; exact h2
      by_cases h3 : inv.range.end_ < d
      · have h3' : cb.range.end_ < d := by rw [hre]; exact h3
        simp only [cbSplitLoop, Invoice.splitLoop, if_neg h1, if_neg h1',
          if_neg h2, if_neg h2', if_pos h3, if_pos h3']
        exact ⟨rfl, by rw [hrb]⟩
      · have h3' : ¬(cb.range.end_ < d) := by rw [hre]; exact h3
        simp only [cbSplitLoop, Invoice.splitLoop, if_neg h1, if_neg h1',
          if_neg h2, if_neg h2', if_neg h3, if_neg h3']
        rw [hrb]
        exact key rest c inv.range.begin
  obtain ⟨retC, pcbC, ibC, eoiC, hX⟩ :
      ∃ r p i e, cbSplitLoop cb cb.range ((d, c) :: rest) 0 cb.range.begin = (r, p, i, e) :=
    ⟨_, _, _, _, rfl⟩
  obtain ⟨retT, pcbT, ibT, eoiT, hY⟩ :
      ∃ r p i e, Invoice.splitLoop inv ((d, c) :: rest) c inv.range.begin = (r, p, i, e) :=
    ⟨_, _, _, _, rfl⟩
  rw [hX, hY] at hstep
  simp only [split_invoice_where_person_count_changes, Invoice.split, hX, hY]
  obtain ⟨hpairs, hstate⟩ := hstep
  have hpcb : pcbC = pcbT := congrArg (fun p => p.1) hstate
  have hib : ibC = ibT := congrArg (fun p => p.2.1) hstate
  have heoi : eoiC = eoiT := congrArg (fun p => p.2.2) hstate
  subst hpcb
  subst hib
  subst heoi
  cases eoiC with
  | true => simpa using hpairs
  | false =>
    simp only [if_neg (Bool.false_ne_true)]
    simp only [cbInvoicePairs, invoicePairs, List.map_append, List.map_cons,
      List.map_nil] at hpairs ⊢
    rw [hpairs, hre]

/-- Counterexample to C10 as stated: for the list [(5, 3)] and an invoice over
[0, 10] the first sub-invoice is tagged 0 by `createbill.py` but 3 by
`types.py`, so the two implementations do not produce the same sequence on
every change-point list. -/
theorem c10_split_agree_counterexample :
    cbInvoicePairs (split_invoice_where_person_count_changes [(5, 3)] exCBInvoice
        exCBInvoice.range) ≠
      invoicePairs (exTInvoice.split [(5, 3)]) := by
  decide

/-- Witness for the amended C10: the list [(0, 4)] starting at the invoice
begin. -/
theorem c10_split_agree_witness :
    cbInvoicePairs (split_invoice_where_person_count_changes [(0, 4)] exCBInvoice
        exCBInvoice.range) =
      invoicePairs (exTInvoice.split [(0, 4)]) :=
  c10_split_agree exCBInvoice exTInvoice 0 4 [] rfl (by decide)

/-- Witness for C3's membership conjunct at a concrete change point of the
example. -/
theorem c3_people_count_changes_witness :
    (date2020 1 1, (4 : Int)).2 =
      peopleCount [exT1, exT2, exT3, exT3b] (date2020 1 1, (4 : Int)).1 :=
  (c3_people_count_changes.1 ⟨date2020 1 1, date2020 12 31⟩
    [exT1, exT2, exT3, exT3b]).2 (date2020 1 1, 4) (by decide)
